import Mathlib

/-!
Shallow embedding of the xook versioned Merkle-trie core (C++ headers under
`src/`): nibble paths, the sparse child bitmap, node types with canonical and
framed serialization, the LRU tree cache with its speculative overlay, and the
legacy adapters.  Byte vectors are modelled as `List Nat` whose entries are
below 256; fixed-width machine integers are `Nat` together with explicit
`% 2 ^ w` reductions where the C++ width matters.
-/

namespace Xook

/-- A byte sequence: every entry fits in one byte. -/
def WFBytes (l : List Nat) : Prop := ∀ x ∈ l, x < 256

instance : DecidablePred WFBytes := fun l => List.decidableBAll _ l

/-- Bit-by-bit population count, with structural fuel so that the kernel can
evaluate it. -/
def popcountFuel : Nat → Nat → Nat
  | 0, _ => 0
  | fuel + 1, m => if m = 0 then 0 else m % 2 + popcountFuel fuel (m / 2)

theorem popcountFuel_congr :
    ∀ fuel fuel' m : Nat, m ≤ fuel → m ≤ fuel' → popcountFuel fuel m = popcountFuel fuel' m := by
  intro fuel
  induction fuel with
  | zero =>
    intro fuel' m h _
    have : m = 0 := by omega
    subst this
    cases fuel' <;> simp [popcountFuel]
  | succ fuel ih =>
    intro fuel' m h h'
    by_cases hm : m = 0
    · subst hm
      cases fuel' <;> simp [popcountFuel]
    · have h1 : 1 ≤ m := by omega
      obtain ⟨f', rfl⟩ : ∃ f', fuel' = f' + 1 := ⟨fuel' - 1, by omega⟩
      show (if m = 0 then 0 else m % 2 + popcountFuel fuel (m / 2))
        = (if m = 0 then 0 else m % 2 + popcountFuel f' (m / 2))
      rw [if_neg hm, if_neg hm, ih f' (m / 2) (by omega) (by omega)]

/-- Population count of a natural number
(`std::popcount` on the 16-bit mask in `sparse_bitmap.hpp`). -/
def popcount (m : Nat) : Nat := popcountFuel m m

theorem popcount_zero : popcount 0 = 0 := rfl

theorem popcount_eq (m : Nat) : popcount m = m % 2 + popcount (m / 2) := by
  by_cases hm : m = 0
  · subst hm
    rfl
  · obtain ⟨k, rfl⟩ : ∃ k, m = k + 1 := ⟨m - 1, by omega⟩
    show popcountFuel (k + 1) (k + 1) = (k + 1) % 2 + popcountFuel ((k + 1) / 2) ((k + 1) / 2)
    show (if k + 1 = 0 then 0 else (k + 1) % 2 + popcountFuel k ((k + 1) / 2))
      = (k + 1) % 2 + popcountFuel ((k + 1) / 2) ((k + 1) / 2)
    rw [if_neg hm, popcountFuel_congr k ((k + 1) / 2) ((k + 1) / 2) (by omega) (by omega)]

/-- Adding a bit block `2 ^ n * b` above the low `n` bits adds the two
popcounts. -/
theorem popcount_add_pow_mul (n : Nat) :
    ∀ a b : Nat, a < 2 ^ n → popcount (a + 2 ^ n * b) = popcount a + popcount b := by
  induction n with
  | zero =>
    intro a b ha
    interval_cases a
    simp [popcount_zero]
  | succ n ih =>
    intro a b ha
    rcases Nat.eq_zero_or_pos b with hb | hb
    · subst hb; simp [popcount_zero]
    rw [popcount_eq (a + 2 ^ (n + 1) * b), popcount_eq a]
    have hp : 2 ^ (n + 1) * b = 2 * (2 ^ n * b) := by ring
    have hq : 2 ^ (n + 1) = 2 * 2 ^ n := by ring
    rw [hp]
    have h2 : (a + 2 * (2 ^ n * b)) % 2 = a % 2 := by omega
    have h3 : (a + 2 * (2 ^ n * b)) / 2 = a / 2 + 2 ^ n * b := by omega
    rw [h2, h3, ih (a / 2) b (by omega)]
    omega

/-- Serialize a 64-bit value as 8 little-endian bytes
(the `version` loops in `node_type.hpp` / `node_serde.hpp`). -/
def serLE64 (v : Nat) : List Nat :=
  (List.range 8).map fun i => (v >>> (8 * i)) % 256

/-- Little-endian byte recomposition by iterated `|=` of shifted bytes, as in
`deserialize_node_from_bytes`. -/
def deLE : List Nat → Nat
  | [] => 0
  | b :: rest => b ||| (deLE rest <<< 8)

/-- Little-endian value of a byte list, in arithmetic form. -/
def natFromLE : List Nat → Nat
  | [] => 0
  | b :: rest => b + 256 * natFromLE rest

/-- Bitwise-or with a block shifted wholly above `a` is addition. -/
theorem or_shiftLeft_eq_add {k a b : Nat} (ha : a < 2 ^ k) :
    a ||| (b <<< k) = a + 2 ^ k * b := by
  apply Nat.eq_of_testBit_eq
  intro i
  rcases Nat.lt_or_ge i k with hik | hik
  · have hk : 2 ^ k * b = 2 ^ (k - i) * b * 2 ^ i := by
      rw [Nat.mul_right_comm, ← pow_add]
      congr 2
      omega
    have h1 : (a + 2 ^ k * b) / 2 ^ i = a / 2 ^ i + 2 ^ (k - i) * b := by
      rw [hk, Nat.add_mul_div_right _ _ (Nat.two_pow_pos i)]
    have hsplit : 2 ^ (k - i) * b = 2 * (2 ^ (k - i - 1) * b) := by
      rw [← Nat.mul_assoc, ← pow_succ']
      congr 2
      omega
    have h2 : (a + 2 ^ k * b) / 2 ^ i % 2 = a / 2 ^ i % 2 := by
      rw [h1, hsplit]
      omega
    simp only [Nat.testBit_or, Nat.testBit_shiftLeft]
    have hnk : ¬ k ≤ i := by omega
    rw [Nat.testBit_to_div_mod (x := a + 2 ^ k * b), h2, ← Nat.testBit_to_div_mod]
    simp [hnk]
  · have hai : a.testBit i = false :=
      Nat.testBit_lt_two_pow (lt_of_lt_of_le ha (Nat.pow_le_pow_right (by norm_num) hik))
    have h1 : (a + 2 ^ k * b) / 2 ^ i = b / 2 ^ (i - k) := by
      have hi : 2 ^ i = 2 ^ k * 2 ^ (i - k) := by
        rw [← pow_add]
        congr 1
        omega
      rw [hi, ← Nat.div_div_eq_div_mul, Nat.mul_comm (2 ^ k) b,
        Nat.add_mul_div_right _ _ (Nat.two_pow_pos k), Nat.div_eq_of_lt ha, Nat.zero_add]
    simp only [Nat.testBit_or, Nat.testBit_shiftLeft, hai, Bool.false_or]
    rw [Nat.testBit_to_div_mod (x := a + 2 ^ k * b), h1, ← Nat.testBit_to_div_mod]
    simp [hik]

/-- On genuine byte lists the `|=`-recomposition agrees with the arithmetic
little-endian value. -/
theorem deLE_eq_natFromLE : ∀ l : List Nat, WFBytes l → deLE l = natFromLE l := by
  intro l
  induction l with
  | nil => intro _; rfl
  | cons b rest ih =>
    intro h
    have hb : b < 256 := h b (by simp)
    have hrest : WFBytes rest := fun x hx => h x (by simp [hx])
    show b ||| (deLE rest <<< 8) = b + 256 * natFromLE rest
    rw [ih hrest, or_shiftLeft_eq_add (k := 8) (by omega)]
    norm_num

theorem serLE64_length (v : Nat) : (serLE64 v).length = 8 := by
  simp [serLE64]

theorem serLE64_wf (v : Nat) : WFBytes (serLE64 v) := by
  intro x hx
  simp only [serLE64, List.mem_map] at hx
  obtain ⟨i, _, rfl⟩ := hx
  exact Nat.mod_lt _ (by norm_num)

/-- Round trip: recomposing the 8 serialized bytes of a 64-bit value yields the
value back. -/
theorem natFromLE_serLE64 (v : Nat) (hv : v < 2 ^ 64) : natFromLE (serLE64 v) = v := by
  show natFromLE ((List.range 8).map fun i => (v >>> (8 * i)) % 256) = v
  simp only [List.range_succ, List.map_append, List.map_cons, List.map_nil,
    show List.range 0 = [] from rfl, List.nil_append, List.cons_append, List.append_nil]
  simp only [natFromLE, Nat.shiftRight_eq_div_pow]
  norm_num
  omega

theorem deLE_serLE64 (v : Nat) (hv : v < 2 ^ 64) : deLE (serLE64 v) = v := by
  rw [deLE_eq_natFromLE _ (serLE64_wf v), natFromLE_serLE64 v hv]

/-- Number of set bits of `m` strictly below position `n`. -/
def bitsBelow (m n : Nat) : Nat := (List.range n).countP m.testBit

theorem popcount_mod_two_pow (m : Nat) : ∀ n : Nat, popcount (m % 2 ^ n) = bitsBelow m n := by
  intro n
  induction n with
  | zero => simp [bitsBelow, Nat.mod_one, popcount_zero]
  | succ n ih =>
    rw [Nat.mod_pow_succ, popcount_add_pow_mul n _ _ (Nat.mod_lt _ (Nat.two_pow_pos n)), ih]
    unfold bitsBelow
    rw [List.range_succ, List.countP_append]
    have hb : m.testBit n = decide (m / 2 ^ n % 2 = 1) := Nat.testBit_to_div_mod
    rcases Nat.mod_two_eq_zero_or_one (m / 2 ^ n) with h | h
    · rw [h]
      simp [popcount_zero, List.countP_cons, hb, h]
    · rw [h]
      have h1 : popcount 1 = 1 := by rw [popcount_eq]; simp [popcount_zero]
      simp [h1, List.countP_cons, hb, h]

theorem popcount_eq_bitsBelow {m w : Nat} (hm : m < 2 ^ w) : popcount m = bitsBelow m w := by
  rw [← popcount_mod_two_pow, Nat.mod_eq_of_lt hm]

theorem bitsBelow_mono (m : Nat) {a b : Nat} (h : a ≤ b) : bitsBelow m a ≤ bitsBelow m b := by
  induction b with
  | zero =>
    have : a = 0 := by omega
    subst this
    exact Nat.le_refl _
  | succ b ih =>
    rcases Nat.lt_or_ge a (b + 1) with h' | h'
    · have := ih (by omega)
      unfold bitsBelow
      rw [List.range_succ, List.countP_append]
      unfold bitsBelow at this
      omega
    · have : a = b + 1 := by omega
      subst this
      exact Nat.le_refl _

theorem bitsBelow_strict_mono {m a b : Nat} (ha : m.testBit a = true) (h : a < b) :
    bitsBelow m a < bitsBelow m b := by
  have h1 : bitsBelow m (a + 1) = bitsBelow m a + 1 := by
    unfold bitsBelow
    rw [List.range_succ, List.countP_append]
    simp [List.countP_cons, ha]
  have h2 := bitsBelow_mono m (show a + 1 ≤ b by omega)
  omega

theorem testBit_or_one_shiftLeft (m n j : Nat) :
    (m ||| (1 <<< n)).testBit j = (m.testBit j || decide (n = j)) := by
  rw [Nat.testBit_or, Nat.one_shiftLeft, Nat.testBit_two_pow]

/-- Setting a fresh bit `n` bumps `bitsBelow` at `k` exactly when `n < k`. -/
theorem bitsBelow_or_fresh {m n : Nat} (hn : m.testBit n = false) (k : Nat) :
    bitsBelow (m ||| (1 <<< n)) k = bitsBelow m k + (if n < k then 1 else 0) := by
  induction k with
  | zero => simp [bitsBelow]
  | succ k ih =>
    unfold bitsBelow at ih ⊢
    rw [List.range_succ, List.countP_append, List.countP_append, ih]
    have hcons : ∀ p : Nat → Bool, List.countP p [k] = if p k then 1 else 0 := by
      intro p
      simp [List.countP_cons]
    rw [hcons, hcons]
    by_cases hnk : n = k
    · subst hnk
      have hp' : (m ||| (1 <<< n)).testBit n = true := by
        rw [testBit_or_one_shiftLeft]
        simp
      rw [hp', hn, if_pos (show n < n + 1 by omega), if_neg (show ¬ n < n by omega)]
      simp
    · have hp' : (m ||| (1 <<< n)).testBit k = m.testBit k := by
        rw [testBit_or_one_shiftLeft]
        simp [hnk]
      rw [hp']
      rcases Nat.lt_or_ge n k with h | h
      · rw [if_pos h, if_pos (show n < k + 1 by omega)]
        omega
      · rw [if_neg (show ¬ n < k by omega), if_neg (show ¬ n < k + 1 by omega)]
        omega

theorem testBit_false_of_ge {m w : Nat} (hm : m < 2 ^ w) {n : Nat} (h : w ≤ n) :
    m.testBit n = false :=
  Nat.testBit_lt_two_pow (lt_of_lt_of_le hm (Nat.pow_le_pow_right (by norm_num) h))

-- =====================================================================
-- SparseBitmap  (src/sparse_bitmap.hpp)
-- =====================================================================

/-- `SparseBitmap`: a 16-bit presence mask.  The C++ field is `uint16_t
mask_`; well-formed values satisfy `mask_ < 2 ^ 16`. -/
structure SparseBitmap where
  mask_ : Nat
deriving DecidableEq, Repr

namespace SparseBitmap

/-- `exists(nibble)`: `(mask_ >> nibble) & 1`, as a Bool. -/
def exists_nibble (b : SparseBitmap) (nibble : Nat) : Bool :=
  b.mask_.testBit nibble

/-- `get_index(nibble)`: `popcount(mask_ & ((1 << nibble) - 1))`. -/
def get_index (b : SparseBitmap) (nibble : Nat) : Nat :=
  popcount (b.mask_ &&& ((1 <<< nibble) - 1))

/-- `set(nibble)`: `mask_ |= (1 << nibble)`. -/
def set (b : SparseBitmap) (nibble : Nat) : SparseBitmap :=
  ⟨b.mask_ ||| (1 <<< nibble)⟩

/-- `raw_mask()`. -/
def raw_mask (b : SparseBitmap) : Nat := b.mask_

/-- `total_children()`: `popcount(mask_)`. -/
def total_children (b : SparseBitmap) : Nat := popcount b.mask_

/-- `empty()`. -/
def isEmptyMask (b : SparseBitmap) : Bool := b.mask_ == 0

theorem get_index_eq_bitsBelow (b : SparseBitmap) (n : Nat) :
    b.get_index n = bitsBelow b.mask_ n := by
  unfold get_index
  rw [Nat.one_shiftLeft, Nat.and_pow_two_sub_one_eq_mod, popcount_mod_two_pow]

end SparseBitmap

-- =====================================================================
-- NibblePath  (src/nibble_path.hpp)
-- =====================================================================

/-- `NibblePath`: nibbles packed two per byte (high nibble first) plus the
actual nibble count. -/
structure NibblePath where
  bytes_ : List Nat
  num_nibbles_ : Nat
deriving DecidableEq, Repr

namespace NibblePath

/-- `from_bytes(bytes, num_nibbles)`: keep at most `(num_nibbles + 1) / 2`
bytes and zero the padding nibble of an odd-length path. -/
def from_bytes (bytes : List Nat) (num_nibbles : Nat) : NibblePath :=
  let expected_size := (num_nibbles + 1) / 2
  let kept := if bytes.length > expected_size then bytes.take expected_size else bytes
  let padded :=
    if num_nibbles % 2 ≠ 0 ∧ kept ≠ [] then
      kept.dropLast ++ [(kept.getLast! ) &&& 0xF0]
    else kept
  ⟨padded, num_nibbles⟩

/-- `size()`. -/
def size (p : NibblePath) : Nat := p.num_nibbles_

/-- `get_nibble(index)`: out-of-range index throws (`none`); otherwise the C++
reads `bytes_[index / 2]`, which we model with `getElem?` so that the
in-bounds question is explicit. -/
def get_nibble (p : NibblePath) (index : Nat) : Option Nat :=
  if index ≥ p.num_nibbles_ then none
  else (p.bytes_[index / 2]?).map fun byte =>
    if index % 2 = 0 then byte >>> 4 else byte &&& 0x0F

/-- The `bytes_[index / 2]` access performed by `get_nibble` stays inside the
stored packed vector. -/
def access_in_bounds (p : NibblePath) (index : Nat) : Prop :=
  index / 2 < p.bytes_.length

instance (p : NibblePath) (index : Nat) : Decidable (access_in_bounds p index) :=
  Nat.decLt _ _

end NibblePath

-- =====================================================================
-- Node types  (src/node_type.hpp)
-- =====================================================================

/-- `ChildInfo`: child hash (64 bytes) plus origin version (`uint64_t`). -/
structure ChildInfo where
  hash : List Nat
  version : Nat
deriving DecidableEq, Repr

instance : Inhabited ChildInfo := ⟨⟨[], 0⟩⟩

/-- Well-formed 64-byte hash value. -/
def WFHash (h : List Nat) : Prop := h.length = 64 ∧ WFBytes h

/-- Well-formed child: valid hash and a value fitting in `uint64_t`. -/
def WFChild (c : ChildInfo) : Prop := WFHash c.hash ∧ c.version < 2 ^ 64

/-- `InternalNode`: sparse bitmap plus dense child vector. -/
structure InternalNode where
  bitmap : SparseBitmap
  children : List ChildInfo
deriving DecidableEq, Repr

/-- `LeafNode`: account key hash and value hash (64 bytes each). -/
structure LeafNode where
  account_key : List Nat
  value_hash : List Nat
deriving DecidableEq, Repr

namespace InternalNode

/-- `get_child(nibble)`. -/
def get_child (I : InternalNode) (nibble : Nat) : Option ChildInfo :=
  if ¬ I.bitmap.exists_nibble nibble then none
  else I.children[I.bitmap.get_index nibble]?

/-- `set_child(nibble, hash, version)`: insert a fresh descriptor at the dense
index, or overwrite in place. -/
def set_child (I : InternalNode) (nibble : Nat) (hash : List Nat) (version : Nat) :
    InternalNode :=
  let info : ChildInfo := ⟨hash, version⟩
  if ¬ I.bitmap.exists_nibble nibble then
    let bitmap' := I.bitmap.set nibble
    let idx := bitmap'.get_index nibble
    ⟨bitmap', I.children.take idx ++ info :: I.children.drop idx⟩
  else
    ⟨I.bitmap, I.children.set (I.bitmap.get_index nibble) info⟩

/-- `serialize_canonical()`: 2 little-endian mask bytes, then per child the
64 hash bytes and the 8 little-endian version bytes. -/
def serialize_canonical (I : InternalNode) : List Nat :=
  let mask := I.bitmap.raw_mask
  (mask % 256) :: ((mask >>> 8) % 256) ::
    I.children.flatMap fun child => child.hash ++ serLE64 child.version

/-- `is_empty()`. -/
def is_empty (I : InternalNode) : Bool := I.bitmap.isEmptyMask

/-- `child_count()`. -/
def child_count (I : InternalNode) : Nat := I.bitmap.total_children

end InternalNode

namespace LeafNode

/-- `serialize_canonical()`: `account_key || value_hash`. -/
def serialize_canonical (L : LeafNode) : List Nat :=
  L.account_key ++ L.value_hash

end LeafNode

/-- `Node = std::variant<InternalNode, LeafNode>`. -/
inductive Node where
  | internal (I : InternalNode)
  | leaf (L : LeafNode)
deriving DecidableEq, Repr

/-- Well-formed internal node: 16-bit mask, dense vector in sync with the
mask's popcount, well-formed children. -/
def WFInternal (I : InternalNode) : Prop :=
  I.bitmap.mask_ < 2 ^ 16 ∧
  I.children.length = popcount I.bitmap.mask_ ∧
  ∀ c ∈ I.children, WFChild c

/-- Well-formed leaf node. -/
def WFLeaf (L : LeafNode) : Prop := WFHash L.account_key ∧ WFHash L.value_hash

/-- Well-formed node. -/
def WFNode : Node → Prop
  | .internal I => WFInternal I
  | .leaf L => WFLeaf L

/-- `serialize_node(node)`: canonical bytes, no tag. -/
def serialize_node : Node → List Nat
  | .internal I => I.serialize_canonical
  | .leaf L => L.serialize_canonical

-- =====================================================================
-- Framed serialization  (src/node_serde.hpp)
-- =====================================================================

/-- `serialize_node_with_prefix(node)`: one kind byte (`0x01` internal,
`0x02` leaf) followed by the canonical bytes. -/
def serialize_node_with_prefix : Node → List Nat
  | .internal I => 1 :: I.serialize_canonical
  | .leaf L => 2 :: L.serialize_canonical

/-- Read `k` child records of 72 bytes (64 hash + 8 version) from the front of
`l`, returning them with the unread remainder; fail on truncation, exactly as
the deserialization loop does. -/
def readChildren : Nat → List Nat → Option (List ChildInfo × List Nat)
  | 0, l => some ([], l)
  | k + 1, l =>
    if l.length < 72 then none
    else
      match readChildren k (l.drop 72) with
      | none => none
      | some (cs, rest) =>
        some (⟨l.take 64, deLE ((l.drop 64).take 8)⟩ :: cs, rest)

/-- `deserialize_node_from_bytes(bytes)`. -/
def deserialize_node_from_bytes (bytes : List Nat) : Option Node :=
  match bytes with
  | [] => none
  | t :: _ =>
    if t = 1 then
      if bytes.length < 3 then none
      else
        let bitmap_mask := bytes.getD 1 0 ||| (bytes.getD 2 0 <<< 8)
        match readChildren (popcount bitmap_mask) (bytes.drop 3) with
        | none => none
        | some (cs, rest) =>
          if rest = [] then some (.internal ⟨⟨bitmap_mask⟩, cs⟩) else none
    else if t = 2 then
      if bytes.length = 129 then
        some (.leaf ⟨(bytes.drop 1).take 64, (bytes.drop 65).take 64⟩)
      else none
    else none

theorem readChildren_spec :
    ∀ (k : Nat) (l : List Nat) (cs : List ChildInfo) (rest : List Nat),
      readChildren k l = some (cs, rest) → cs.length = k ∧ l.length = 72 * k + rest.length := by
  intro k
  induction k with
  | zero =>
    intro l cs rest h
    simp only [readChildren, Option.some_inj] at h
    have h1 : ([] : List ChildInfo) = cs := congrArg Prod.fst h
    have h2 : l = rest := congrArg Prod.snd h
    subst h1
    subst h2
    simp
  | succ k ih =>
    intro l cs rest h
    unfold readChildren at h
    by_cases hl : l.length < 72
    · simp [hl] at h
    · rw [if_neg hl] at h
      cases hrc : readChildren k (l.drop 72) with
      | none => rw [hrc] at h; exact absurd h (by simp)
      | some pr =>
        obtain ⟨cs', rest'⟩ := pr
        rw [hrc] at h
        simp only [Option.some_inj] at h
        have h1 : ⟨l.take 64, deLE ((l.drop 64).take 8)⟩ :: cs' = cs := congrArg Prod.fst h
        have h2 : rest' = rest := congrArg Prod.snd h
        subst h2
        obtain ⟨ih1, ih2⟩ := ih _ _ _ hrc
        have hdl : (l.drop 72).length = l.length - 72 := by simp
        constructor
        · rw [← h1]
          simp [ih1]
        · omega

theorem readChildren_of_serialized :
    ∀ (cs : List ChildInfo), (∀ c ∈ cs, WFChild c) → ∀ tail : List Nat,
      readChildren cs.length ((cs.flatMap fun c => c.hash ++ serLE64 c.version) ++ tail)
        = some (cs, tail) := by
  intro cs
  induction cs with
  | nil =>
    intro _ tail
    simp [readChildren]
  | cons c cs ih =>
    intro hwf tail
    obtain ⟨⟨hlen, _⟩, hver⟩ := hwf c (by simp)
    have hser : (serLE64 c.version).length = 8 := serLE64_length _
    have hassoc :
        ((c :: cs).flatMap fun x => x.hash ++ serLE64 x.version) ++ tail
          = (c.hash ++ serLE64 c.version) ++ ((cs.flatMap fun x => x.hash ++ serLE64 x.version) ++ tail) := by
      simp [List.flatMap_cons, List.append_assoc]
    have hlen72 : (c.hash ++ serLE64 c.version).length = 72 := by
      simp [hlen, hser]
    show readChildren (cs.length + 1) _ = _
    unfold readChildren
    rw [hassoc]
    have hbig : ¬ ((c.hash ++ serLE64 c.version) ++ ((cs.flatMap fun x => x.hash ++ serLE64 x.version) ++ tail)).length < 72 := by
      rw [List.length_append, hlen72]
      omega
    rw [if_neg hbig, List.drop_left' hlen72, ih (fun x hx => hwf x (by simp [hx])) tail]
    have htake : ((c.hash ++ serLE64 c.version) ++ ((cs.flatMap fun x => x.hash ++ serLE64 x.version) ++ tail)).take 64 = c.hash := by
      rw [List.append_assoc, List.take_left' hlen]
    have hdrop : ((c.hash ++ serLE64 c.version) ++ ((cs.flatMap fun x => x.hash ++ serLE64 x.version) ++ tail)).drop 64
        = serLE64 c.version ++ ((cs.flatMap fun x => x.hash ++ serLE64 x.version) ++ tail) := by
      rw [List.append_assoc, List.drop_left' hlen]
    rw [htake, hdrop, List.take_left' hser, deLE_serLE64 _ hver]

/-- Length of the serialized child block. -/
theorem flatMap_serChild_length (cs : List ChildInfo) (h : ∀ c ∈ cs, WFChild c) :
    ((cs.flatMap fun c => c.hash ++ serLE64 c.version)).length = 72 * cs.length := by
  induction cs with
  | nil => simp
  | cons c cs ih =>
    obtain ⟨⟨hlen, _⟩, _⟩ := h c (by simp)
    have := ih (fun x hx => h x (by simp [hx]))
    simp only [List.flatMap_cons, List.length_append, this, hlen, serLE64_length,
      List.length_cons]
    ring

/-- A 16-bit little-endian mask round-trips through its two bytes. -/
theorem mask_bytes_roundtrip {m : Nat} (hm : m < 2 ^ 16) :
    (m % 256) ||| (((m >>> 8) % 256) <<< 8) = m := by
  have h8 : m >>> 8 = m / 256 := by
    rw [Nat.shiftRight_eq_div_pow]
  have hdiv : m / 256 % 256 = m / 256 := Nat.mod_eq_of_lt (by omega)
  rw [h8, hdiv, or_shiftLeft_eq_add (k := 8) (show m % 256 < 2 ^ 8 by omega)]
  omega

/-- Successful deserialization pins down the kind tag and the exact frame
length. -/
theorem deserialize_some_cases {b : List Nat} {n : Node}
    (h : deserialize_node_from_bytes b = some n) :
    (∃ I : InternalNode, n = .internal I ∧ b.head? = some 1 ∧
      I.bitmap.mask_ = b.getD 1 0 ||| (b.getD 2 0 <<< 8) ∧
      b.length = 3 + 72 * popcount I.bitmap.mask_) ∨
    (∃ L : LeafNode, n = .leaf L ∧ b.head? = some 2 ∧ b.length = 129) := by
  cases b with
  | nil => exact absurd h (by simp [deserialize_node_from_bytes])
  | cons t tl =>
    simp only [deserialize_node_from_bytes] at h
    by_cases ht : t = 1
    · subst ht
      rw [if_pos rfl] at h
      by_cases hlen : (1 :: tl : List Nat).length < 3
      · rw [if_pos hlen] at h
        exact absurd h (by simp)
      · rw [if_neg hlen] at h
        cases hrc : readChildren (popcount ((1 :: tl : List Nat).getD 1 0 |||
            ((1 :: tl : List Nat).getD 2 0 <<< 8))) ((1 :: tl : List Nat).drop 3) with
        | none => rw [hrc] at h; exact absurd h (by simp)
        | some pr =>
          obtain ⟨cs, rest⟩ := pr
          simp only [hrc] at h
          by_cases hrest : rest = ([] : List Nat)
          · rw [if_pos hrest] at h
            subst hrest
            obtain ⟨hcs, hl⟩ := readChildren_spec _ _ _ _ hrc
            left
            refine ⟨_, (Option.some_inj.mp h).symm, rfl, rfl, ?_⟩
            show (1 :: tl : List Nat).length
              = 3 + 72 * popcount ((1 :: tl : List Nat).getD 1 0 ||| ((1 :: tl : List Nat).getD 2 0 <<< 8))
            have hdl : ((1 :: tl : List Nat).drop 3).length = (1 :: tl : List Nat).length - 3 := by
              simp
            have hnil : ([] : List Nat).length = 0 := rfl
            have hlen3 : ¬ (1 :: tl : List Nat).length < 3 := hlen
            omega
          · rw [if_neg hrest] at h
            exact absurd h (by simp)
    · rw [if_neg ht] at h
      by_cases ht2 : t = 2
      · subst ht2
        rw [if_pos rfl] at h
        by_cases hlen : (2 :: tl : List Nat).length = 129
        · rw [if_pos hlen] at h
          right
          exact ⟨_, (Option.some_inj.mp h).symm, rfl, hlen⟩
        · rw [if_neg hlen] at h
          exact absurd h (by simp)
      · rw [if_neg ht2] at h
        exact absurd h (by simp)

/-- Every parseable frame has length ≡ 3 (mod 6). -/
theorem deserialize_some_length_mod {b : List Nat} {n : Node}
    (h : deserialize_node_from_bytes b = some n) : b.length % 6 = 3 := by
  rcases deserialize_some_cases h with ⟨I, _, _, _, hl⟩ | ⟨L, _, _, hl⟩ <;> omega

/-- C1: `deserialize_node_from_bytes` returns a node only for exactly framed
input — a framed Leaf is exactly `1 + 2·64` bytes, a framed Internal exactly
`1 + 2 + popcount(mask)·72` bytes — empty input yields no node, and growing or
shrinking any parseable frame by one byte makes deserialization fail. -/
theorem C1_deserialize_strict_framing (b : List Nat) :
    (∀ n : Node, deserialize_node_from_bytes b = some n →
      (∃ I : InternalNode, n = .internal I ∧ b.head? = some 1 ∧
        b.length = 1 + 2 + popcount I.bitmap.mask_ * (64 + 8)) ∨
      (∃ L : LeafNode, n = .leaf L ∧ b.head? = some 2 ∧ b.length = 1 + 2 * 64)) ∧
    deserialize_node_from_bytes [] = none ∧
    (∀ b' : List Nat,
      (deserialize_node_from_bytes b).isSome →
      (b'.length = b.length + 1 ∨ b.length = b'.length + 1) →
      deserialize_node_from_bytes b' = none) := by
  refine ⟨?_, rfl, ?_⟩
  · intro n h
    rcases deserialize_some_cases h with ⟨I, h1, h2, _, h4⟩ | ⟨L, h1, h2, h3⟩
    · exact Or.inl ⟨I, h1, h2, by omega⟩
    · exact Or.inr ⟨L, h1, h2, by omega⟩
  · intro b' hs hlen
    rcases Option.isSome_iff_exists.mp hs with ⟨n, hn⟩
    have hm := deserialize_some_length_mod hn
    cases hd : deserialize_node_from_bytes b' with
    | none => rfl
    | some n' =>
      have hm' := deserialize_some_length_mod hd
      omega

set_option maxRecDepth 4000 in
/-- C1 witness: a concrete 129-byte leaf frame parses, and the same frame with
one trailing byte appended does not. -/
theorem C1_witness :
    deserialize_node_from_bytes ((2 :: List.replicate 128 0) ++ [5]) = none :=
  (C1_deserialize_strict_framing (2 :: List.replicate 128 0)).2.2
    ((2 :: List.replicate 128 0) ++ [5])
    (by decide)
    (Or.inl (by simp))

/-- C2: deserializing the framed encoding of any well-formed node returns the
node itself. -/
theorem C2_roundtrip (N : Node) (h : WFNode N) :
    deserialize_node_from_bytes ( serialize_node_with_prefix N) = some N := by
  cases N with
  | leaf L =>
    obtain ⟨⟨hk, _⟩, ⟨hv, _⟩⟩ := h
    show deserialize_node_from_bytes (2 :: (L.account_key ++ L.value_hash)) = some (.leaf L)
    have hlen : (2 :: (L.account_key ++ L.value_hash) : List Nat).length = 129 := by
      simp [hk, hv]
    have h1 : ((2 :: (L.account_key ++ L.value_hash) : List Nat).drop 1).take 64
        = L.account_key := by
      show (L.account_key ++ L.value_hash).take 64 = L.account_key
      exact List.take_left' hk
    have h2 : ((2 :: (L.account_key ++ L.value_hash) : List Nat).drop 65).take 64
        = L.value_hash := by
      show ((L.account_key ++ L.value_hash).drop 64).take 64 = L.value_hash
      rw [List.drop_left' hk, ← hv, List.take_length]
    simp only [deserialize_node_from_bytes]
    rw [if_pos trivial, if_pos hlen, h1, h2, if_neg (show ¬ (2 : Nat) = 1 by norm_num)]
  | internal I =>
    obtain ⟨hmask, hcnt, hwf⟩ := h
    show deserialize_node_from_bytes
      (1 :: ((I.bitmap.raw_mask % 256) :: ((I.bitmap.raw_mask >>> 8) % 256) ::
        I.children.flatMap fun child => child.hash ++ serLE64 child.version)) = some (.internal I)
    have hplen : (I.children.flatMap fun child => child.hash ++ serLE64 child.version).length
        = 72 * I.children.length := flatMap_serChild_length I.children hwf
    have hlen3 : ¬ (1 :: ((I.bitmap.raw_mask % 256) :: ((I.bitmap.raw_mask >>> 8) % 256) ::
        I.children.flatMap fun child => child.hash ++ serLE64 child.version) : List Nat).length < 3 := by
      simp
    simp only [deserialize_node_from_bytes]
    rw [if_pos trivial, if_neg hlen3]
    have hgd : (1 :: ((I.bitmap.raw_mask % 256) :: ((I.bitmap.raw_mask >>> 8) % 256) ::
          I.children.flatMap fun child => child.hash ++ serLE64 child.version) : List Nat).getD 1 0 |||
        ((1 :: ((I.bitmap.raw_mask % 256) :: ((I.bitmap.raw_mask >>> 8) % 256) ::
          I.children.flatMap fun child => child.hash ++ serLE64 child.version) : List Nat).getD 2 0 <<< 8)
        = I.bitmap.mask_ := by
      show (I.bitmap.mask_ % 256) ||| (((I.bitmap.mask_ >>> 8) % 256) <<< 8) = I.bitmap.mask_
      exact mask_bytes_roundtrip hmask
    rw [hgd]
    have hdrop : (1 :: ((I.bitmap.raw_mask % 256) :: ((I.bitmap.raw_mask >>> 8) % 256) ::
          I.children.flatMap fun child => child.hash ++ serLE64 child.version) : List Nat).drop 3
        = I.children.flatMap fun child => child.hash ++ serLE64 child.version := rfl
    rw [hdrop]
    have hrc := readChildren_of_serialized I.children hwf []
    rw [List.append_nil] at hrc
    rw [← hcnt, hrc]
    rfl

/-- C2 witness: a concrete well-formed leaf node round-trips. -/
theorem C2_witness :
    deserialize_node_from_bytes
      ( serialize_node_with_prefix (Node.leaf ⟨List.replicate 64 3, List.replicate 64 4⟩))
      = some (Node.leaf ⟨List.replicate 64 3, List.replicate 64 4⟩) :=
  C2_roundtrip _ (by refine ⟨⟨?_, ?_⟩, ?_, ?_⟩ <;> decide)

-- =====================================================================
-- Domain-separated hashing  (src/node_type.hpp)
-- =====================================================================

/-- ASCII bytes of the C++ string constant `XOOK_INTERNAL_NODE_DOMAIN =
"GLOFICA_InternalNode_V2_PQ"`. -/
def XOOK_INTERNAL_NODE_DOMAIN : List Nat :=
  "GLOFICA_InternalNode_V2_PQ".toList.map Char.toNat

/-- ASCII bytes of the C++ string constant `XOOK_LEAF_NODE_DOMAIN =
"GLOFICA_LeafNode_V2_PQ"`. -/
def XOOK_LEAF_NODE_DOMAIN : List Nat :=
  "GLOFICA_LeafNode_V2_PQ".toList.map Char.toNat

/-- The buffer handed to the hash primitive by `InternalNode::hash()`:
domain separator followed by the canonical bytes. -/
def InternalNode.hashInput (I : InternalNode) : List Nat :=
  XOOK_INTERNAL_NODE_DOMAIN ++ I.serialize_canonical

/-- The buffer handed to the hash primitive by `LeafNode::hash()`. -/
def LeafNode.hashInput (L : LeafNode) : List Nat :=
  XOOK_LEAF_NODE_DOMAIN ++ L.serialize_canonical

/-- `InternalNode::hash()`: the hash primitive (`hash::blake3`, which lives in
`src/common`, outside this repository slice) applied to the domain-separated
buffer; the primitive is abstracted as `hashfn`. -/
def InternalNode.hash (hashfn : List Nat → List Nat) (I : InternalNode) : List Nat :=
  hashfn I.hashInput

/-- `LeafNode::hash()`. -/
def LeafNode.hash (hashfn : List Nat → List Nat) (L : LeafNode) : List Nat :=
  hashfn L.hashInput

/-- `hash_node(node)`. -/
def hash_node (hashfn : List Nat → List Nat) : Node → List Nat
  | .internal I => I.hash hashfn
  | .leaf L => L.hash hashfn

theorem internal_domain_length : XOOK_INTERNAL_NODE_DOMAIN.length = 26 := by decide

theorem leaf_domain_length : XOOK_LEAF_NODE_DOMAIN.length = 22 := by decide

/-- C3: node hashing is domain-separated — each kind prefixes its own fixed
domain string to the canonical bytes, so even when an internal node and a leaf
have byte-identical canonical encodings the two hash inputs differ, and for an
injective hash primitive the two hashes differ. -/
theorem C3_domain_separation (hashfn : List Nat → List Nat)
    (hinj : Function.Injective hashfn) (I : InternalNode) (L : LeafNode)
    (hcanon : I.serialize_canonical = L.serialize_canonical) :
    I.hashInput ≠ L.hashInput ∧ I.hash hashfn ≠ L.hash hashfn := by
  have hne : I.hashInput ≠ L.hashInput := by
    intro heq
    have hlen := congrArg List.length heq
    rw [InternalNode.hashInput, LeafNode.hashInput, List.length_append, List.length_append,
      internal_domain_length, leaf_domain_length, hcanon] at hlen
    omega
  exact ⟨hne, fun heq => hne (hinj heq)⟩

/-- C3 witness: a contrived internal node and leaf with equal canonical bytes
`[0, 0]`, under the identity (injective) hash primitive. -/
theorem C3_witness :
    InternalNode.hashInput ⟨⟨0⟩, []⟩ ≠ LeafNode.hashInput ⟨[0, 0], []⟩ ∧
    InternalNode.hash id ⟨⟨0⟩, []⟩ ≠ LeafNode.hash id ⟨[0, 0], []⟩ :=
  C3_domain_separation id Function.injective_id ⟨⟨0⟩, []⟩ ⟨[0, 0], []⟩ (by decide)

-- =====================================================================
-- Dense child storage: mask-ascending serialization  (C4)
-- =====================================================================

theorem flatMap_congr_mem {l : List Nat} {g1 g2 : Nat → List Nat}
    (h : ∀ n ∈ l, g1 n = g2 n) : l.flatMap g1 = l.flatMap g2 := by
  induction l with
  | nil => rfl
  | cons a l ih =>
    rw [List.flatMap_cons, List.flatMap_cons, h a (by simp),
      ih fun n hn => h n (by simp [hn])]

/-- The dense child vector, walked in ascending nibble order through the
`bitsBelow` index map, is just the vector in its stored order. -/
theorem flatMap_range_dense (m : Nat) (f : ChildInfo → List Nat) (d : ChildInfo) :
    ∀ (w : Nat) (cs : List ChildInfo), cs.length = bitsBelow m w →
    ((List.range w).flatMap fun n =>
        if m.testBit n then f (cs.getD (bitsBelow m n) d) else [])
      = cs.flatMap f := by
  intro w
  induction w with
  | zero =>
    intro cs hcs
    have : cs = [] := List.length_eq_zero.mp (by simpa [bitsBelow] using hcs)
    subst this
    rfl
  | succ w ih =>
    intro cs hcs
    have hstep : bitsBelow m (w + 1) = bitsBelow m w + (if m.testBit w then 1 else 0) := by
      unfold bitsBelow
      rw [List.range_succ, List.countP_append]
      by_cases hp : m.testBit w <;> simp [List.countP_cons, hp]
    rw [List.range_succ, List.flatMap_append]
    by_cases hp : m.testBit w
    · have hne : cs ≠ [] := by
        intro hnil
        subst hnil
        rw [hstep, if_pos hp] at hcs
        simp at hcs
      obtain ⟨cs', c, rfl⟩ : ∃ cs' c, cs = cs' ++ [c] :=
        ⟨cs.dropLast, cs.getLast hne, (List.dropLast_concat_getLast hne).symm⟩
      have hlen' : cs'.length = bitsBelow m w := by
        rw [hstep, if_pos hp] at hcs
        simp only [List.length_append, List.length_cons, List.length_nil] at hcs
        omega
      have hcong : ∀ n ∈ List.range w,
          (if m.testBit n then f ((cs' ++ [c]).getD (bitsBelow m n) d) else [])
          = (if m.testBit n then f (cs'.getD (bitsBelow m n) d) else []) := by
        intro n hn
        have hnw : n < w := List.mem_range.mp hn
        by_cases hp' : m.testBit n
        · rw [if_pos hp', if_pos hp']
          have hidx : bitsBelow m n < cs'.length := by
            rw [hlen']
            exact bitsBelow_strict_mono hp' hnw
          rw [List.getD_eq_getElem?_getD, List.getD_eq_getElem?_getD,
            List.getElem?_append_left hidx]
        · rw [if_neg hp', if_neg hp']
      rw [flatMap_congr_mem hcong, ih cs' hlen']
      have hlast : ((cs' ++ [c])[bitsBelow m w]?).getD d = c := by
        rw [← hlen', List.getElem?_concat_length]
        rfl
      simp [hp, hlast]
    · have hlen' : cs.length = bitsBelow m w := by
        rw [hstep, if_neg hp] at hcs
        omega
      rw [ih cs hlen']
      simp [hp]

/-- C4: `serialize_canonical` on a well-formed internal node writes the 16-bit
mask as two little-endian bytes, then for each present child in ascending
nibble order its 64 hash bytes and 8 little-endian origin-version bytes; the
total length is `2 + popcount(mask)·(64+8)`. -/
theorem C4_internal_serialize_canonical (I : InternalNode) (h : WFInternal I) :
    I.serialize_canonical
      = (I.bitmap.raw_mask % 256) :: ((I.bitmap.raw_mask >>> 8) % 256) ::
        ((List.range 16).flatMap fun n =>
          (I.get_child n).elim [] fun c => c.hash ++ serLE64 c.version) ∧
    I.serialize_canonical.length = 2 + popcount I.bitmap.raw_mask * (64 + 8) := by
  obtain ⟨hmask, hcnt, hwf⟩ := h
  have hcong : ∀ n ∈ List.range 16,
      ((I.get_child n).elim [] fun c => c.hash ++ serLE64 c.version)
      = (if I.bitmap.mask_.testBit n then
          ((I.children.getD (bitsBelow I.bitmap.mask_ n) default).hash
            ++ serLE64 (I.children.getD (bitsBelow I.bitmap.mask_ n) default).version)
        else []) := by
    intro n hn
    have hnw : n < 16 := List.mem_range.mp hn
    by_cases hp : I.bitmap.mask_.testBit n
    · have hidx : bitsBelow I.bitmap.mask_ n < I.children.length := by
        rw [hcnt, popcount_eq_bitsBelow hmask]
        exact bitsBelow_strict_mono hp hnw
      have hgc : I.get_child n = some (I.children.getD (bitsBelow I.bitmap.mask_ n) default) := by
        simp only [InternalNode.get_child, SparseBitmap.exists_nibble, hp,
          SparseBitmap.get_index_eq_bitsBelow, List.getD_eq_getElem?_getD,
          List.getElem?_eq_getElem hidx, Option.getD_some]
        simp
      rw [hgc, if_pos hp]
      rfl
    · have hgc : I.get_child n = none := by
        simp only [InternalNode.get_child, SparseBitmap.exists_nibble, hp]
        simp
      rw [hgc, if_neg hp]
      rfl
  constructor
  · show (I.bitmap.mask_ % 256) :: ((I.bitmap.mask_ >>> 8) % 256) ::
      (I.children.flatMap fun c => c.hash ++ serLE64 c.version) = _
    rw [flatMap_congr_mem hcong,
      flatMap_range_dense I.bitmap.mask_ (fun c => c.hash ++ serLE64 c.version) default 16
        I.children (hcnt.trans (popcount_eq_bitsBelow hmask))]
    rfl
  · show ((I.bitmap.mask_ % 256) :: ((I.bitmap.mask_ >>> 8) % 256) ::
      (I.children.flatMap fun c => c.hash ++ serLE64 c.version)).length = _
    rw [List.length_cons, List.length_cons, flatMap_serChild_length I.children hwf, hcnt]
    show 72 * popcount I.bitmap.mask_ + 1 + 1 = 2 + popcount I.bitmap.mask_ * (64 + 8)
    ring

-- =====================================================================
-- Sparse child map invariant under set_child  (C5)
-- =====================================================================

theorem getElem?_drop_eq {α : Type} :
    ∀ (i : Nat) (l : List α) (j : Nat), (l.drop i)[j]? = l[i + j]? := by
  intro i
  induction i with
  | zero =>
    intro l j
    simp
  | succ i ih =>
    intro l j
    cases l with
    | nil => simp
    | cons a l =>
      show (l.drop i)[j]? = (a :: l)[i + 1 + j]?
      rw [ih l j, show i + 1 + j = (i + j) + 1 by omega, List.getElem?_cons_succ]

/-- The sparse-map invariant tracked through `set_child`: 16-bit mask and a
dense vector of exactly `popcount(mask)` descriptors. -/
def InvSparse (I : InternalNode) : Prop :=
  I.bitmap.mask_ < 2 ^ 16 ∧ I.children.length = popcount I.bitmap.mask_

theorem bitsBelow_le_popcount {mask n : Nat} (hmask : mask < 2 ^ 16) (hn : n ≤ 16) :
    bitsBelow mask n ≤ popcount mask := by
  rw [popcount_eq_bitsBelow hmask]
  exact bitsBelow_mono mask hn

theorem bitsBelow_lt_popcount {mask n : Nat} (hmask : mask < 2 ^ 16) (hn : n < 16)
    (hb : mask.testBit n = true) : bitsBelow mask n < popcount mask := by
  rw [popcount_eq_bitsBelow hmask]
  exact bitsBelow_strict_mono hb hn

theorem get_child_mk (mask : Nat) (cs : List ChildInfo) (n : Nat) :
    InternalNode.get_child ⟨⟨mask⟩, cs⟩ n
      = if mask.testBit n then cs[bitsBelow mask n]? else none := by
  unfold InternalNode.get_child
  by_cases hb : mask.testBit n
  · rw [if_neg (by simp [SparseBitmap.exists_nibble, hb]), if_pos hb]
    show cs[SparseBitmap.get_index ⟨mask⟩ n]? = _
    rw [SparseBitmap.get_index_eq_bitsBelow]
  · rw [if_pos (by simp [SparseBitmap.exists_nibble, hb]), if_neg hb]

theorem fresh_get_index {mask m : Nat} (hf : mask.testBit m = false) :
    SparseBitmap.get_index ⟨mask ||| 1 <<< m⟩ m = bitsBelow mask m := by
  rw [SparseBitmap.get_index_eq_bitsBelow]
  show bitsBelow (mask ||| 1 <<< m) m = bitsBelow mask m
  rw [bitsBelow_or_fresh hf m, if_neg (lt_irrefl m)]
  omega

theorem set_child_mk_fresh {mask : Nat} (cs : List ChildInfo) {m : Nat} (hs : List Nat) (v : Nat)
    (hf : mask.testBit m = false) :
    InternalNode.set_child ⟨⟨mask⟩, cs⟩ m hs v
      = ⟨⟨mask ||| 1 <<< m⟩,
          cs.take (bitsBelow mask m) ++ ⟨hs, v⟩ :: cs.drop (bitsBelow mask m)⟩ := by
  unfold InternalNode.set_child
  rw [if_pos (by simp [SparseBitmap.exists_nibble, hf])]
  show (⟨SparseBitmap.set ⟨mask⟩ m,
      cs.take (SparseBitmap.get_index (SparseBitmap.set ⟨mask⟩ m) m) ++
        ⟨hs, v⟩ :: cs.drop (SparseBitmap.get_index (SparseBitmap.set ⟨mask⟩ m) m)⟩ : InternalNode) = _
  rw [show SparseBitmap.set ⟨mask⟩ m = ⟨mask ||| 1 <<< m⟩ from rfl, fresh_get_index hf]

theorem set_child_mk_replace {mask : Nat} (cs : List ChildInfo) {m : Nat} (hs : List Nat) (v : Nat)
    (hf : mask.testBit m = true) :
    InternalNode.set_child ⟨⟨mask⟩, cs⟩ m hs v
      = ⟨⟨mask⟩, cs.set (bitsBelow mask m) ⟨hs, v⟩⟩ := by
  unfold InternalNode.set_child
  rw [if_neg (by simp [SparseBitmap.exists_nibble, hf])]
  show (⟨⟨mask⟩, cs.set (SparseBitmap.get_index ⟨mask⟩ m) ⟨hs, v⟩⟩ : InternalNode) = _
  rw [SparseBitmap.get_index_eq_bitsBelow]

theorem set_child_inv {I : InternalNode} (h : InvSparse I) {m : Nat} (hm : m < 16)
    (hs : List Nat) (v : Nat) : InvSparse (I.set_child m hs v) := by
  obtain ⟨⟨mask⟩, cs⟩ := I
  obtain ⟨hmask, hcnt⟩ := h
  simp only [SparseBitmap.mask_] at hmask hcnt
  by_cases hf : mask.testBit m
  · rw [set_child_mk_replace cs hs v hf]
    exact ⟨hmask, by simpa using hcnt⟩
  · have hf' : mask.testBit m = false := by simpa using hf
    rw [set_child_mk_fresh cs hs v hf']
    have hor : mask ||| 1 <<< m < 2 ^ 16 := by
      rw [Nat.one_shiftLeft]
      exact Nat.or_lt_two_pow hmask (Nat.pow_lt_pow_right (by norm_num) hm)
    refine ⟨hor, ?_⟩
    have hle : bitsBelow mask m ≤ cs.length := by
      rw [hcnt]
      exact bitsBelow_le_popcount hmask (by omega)
    have hpop : popcount (mask ||| 1 <<< m) = popcount mask + 1 := by
      rw [popcount_eq_bitsBelow hor, popcount_eq_bitsBelow hmask,
        bitsBelow_or_fresh hf' 16, if_pos hm]
    show (cs.take (bitsBelow mask m) ++ ⟨hs, v⟩ :: cs.drop (bitsBelow mask m)).length
      = popcount (mask ||| 1 <<< m)
    rw [hpop, List.length_append, List.length_cons, List.length_take, List.length_drop]
    omega

theorem get_child_set_child {I : InternalNode} (h : InvSparse I) {m : Nat} (hm : m < 16)
    (hs : List Nat) (v : Nat) (n : Nat) :
    (I.set_child m hs v).get_child n
      = if n = m then some ⟨hs, v⟩ else I.get_child n := by
  obtain ⟨⟨mask⟩, cs⟩ := I
  obtain ⟨hmask, hcnt⟩ := h
  simp only [SparseBitmap.mask_] at hmask hcnt
  by_cases hf : mask.testBit m
  · -- overwrite in place
    rw [set_child_mk_replace cs hs v hf, get_child_mk, get_child_mk]
    have hidxlt : bitsBelow mask m < cs.length := by
      rw [hcnt]
      exact bitsBelow_lt_popcount hmask hm hf
    by_cases hnm : n = m
    · subst hnm
      rw [if_pos rfl, if_pos hf, List.getElem?_set_self hidxlt]
    · rw [if_neg hnm]
      by_cases hb : mask.testBit n
      · rw [if_pos hb, if_pos hb]
        have hne : bitsBelow mask m ≠ bitsBelow mask n := by
          rcases Nat.lt_or_ge n m with hlt | hge
          · exact fun he => absurd (he ▸ bitsBelow_strict_mono hb hlt) (lt_irrefl _)
          · have hlt : m < n := by omega
            exact Nat.ne_of_lt (bitsBelow_strict_mono hf hlt)
        exact List.getElem?_set_ne hne
      · rw [if_neg hb, if_neg hb]
  · -- fresh insert
    have hf' : mask.testBit m = false := by simpa using hf
    rw [set_child_mk_fresh cs hs v hf', get_child_mk, get_child_mk]
    have hle : bitsBelow mask m ≤ cs.length := by
      rw [hcnt]
      exact bitsBelow_le_popcount hmask (by omega)
    have htake : (cs.take (bitsBelow mask m)).length = bitsBelow mask m := by
      rw [List.length_take]
      omega
    by_cases hnm : n = m
    · subst hnm
      rw [if_pos rfl,
        if_pos (show (mask ||| 1 <<< n).testBit n = true by
          rw [testBit_or_one_shiftLeft]; simp),
        bitsBelow_or_fresh hf' n, if_neg (lt_irrefl n)]
      rw [List.getElem?_append_right (by omega), htake]
      simp
    · rw [if_neg hnm]
      have hmn' : m ≠ n := fun he => hnm (Eq.symm he)
      have hexeq : (mask ||| 1 <<< m).testBit n = mask.testBit n := by
        rw [testBit_or_one_shiftLeft]
        simp [hmn']
      rw [hexeq, bitsBelow_or_fresh hf' n]
      by_cases hb : mask.testBit n
      · rw [if_pos hb, if_pos hb]
        rcases Nat.lt_or_ge n m with hlt | hge
        · have hjlt : bitsBelow mask n < bitsBelow mask m := bitsBelow_strict_mono hb hlt
          rw [if_neg (by omega), Nat.add_zero, List.getElem?_append_left (by omega),
            List.getElem?_take_of_lt hjlt]
        · have hmn : m < n := by omega
          have hjge : bitsBelow mask m ≤ bitsBelow mask n := bitsBelow_mono mask (by omega)
          rw [if_pos hmn,
            List.getElem?_append_right (by omega : (cs.take (bitsBelow mask m)).length ≤ bitsBelow mask n + 1),
            htake, show bitsBelow mask n + 1 - bitsBelow mask m = (bitsBelow mask n - bitsBelow mask m) + 1 by omega,
            List.getElem?_cons_succ, getElem?_drop_eq,
            show bitsBelow mask m + (bitsBelow mask n - bitsBelow mask m) = bitsBelow mask n by omega]
      · rw [if_neg hb, if_neg hb]

/-- Fold a sequence of `set_child` operations over the empty internal node. -/
def applySets (ops : List (Nat × ChildInfo)) : InternalNode :=
  ops.foldl (fun I op => I.set_child op.1 op.2.hash op.2.version) ⟨⟨0⟩, []⟩

/-- The descriptor most recently set for nibble `n` in a sequence of
`set_child` operations. -/
def lastSet (ops : List (Nat × ChildInfo)) (n : Nat) : Option ChildInfo :=
  ops.foldl (fun acc op => if op.1 = n then some op.2 else acc) none

theorem applySets_inv_and_get :
    ∀ ops : List (Nat × ChildInfo), (∀ op ∈ ops, op.1 < 16) →
      InvSparse (applySets ops) ∧ ∀ n, (applySets ops).get_child n = lastSet ops n := by
  intro ops
  induction ops using List.reverseRecOn with
  | nil =>
    intro _
    refine ⟨⟨?_, ?_⟩, ?_⟩
    · show (0 : Nat) < 2 ^ 16
      norm_num
    · rfl
    intro n
    show InternalNode.get_child ⟨⟨0⟩, []⟩ n = none
    unfold InternalNode.get_child
    rw [if_pos (by simp [SparseBitmap.exists_nibble])]
  | append_singleton ops op ih =>
    intro hops
    have hops' : ∀ o ∈ ops, o.1 < 16 := fun o ho => hops o (by simp [ho])
    have hm : op.1 < 16 := hops op (by simp)
    obtain ⟨hinv, hget⟩ := ih hops'
    have happ : applySets (ops ++ [op])
        = (applySets ops).set_child op.1 op.2.hash op.2.version := by
      unfold applySets
      rw [List.foldl_append]
      rfl
    have hlast : ∀ n, lastSet (ops ++ [op]) n
        = if op.1 = n then some op.2 else lastSet ops n := by
      intro n
      unfold lastSet
      rw [List.foldl_append]
      rfl
    refine ⟨happ ▸ set_child_inv hinv hm _ _, ?_⟩
    intro n
    rw [happ, hlast n, get_child_set_child hinv hm]
    by_cases hnm : n = op.1
    · rw [if_pos hnm, if_pos hnm.symm]
    · rw [if_neg hnm, if_neg fun hh => hnm hh.symm, hget n]

/-- C5: for every internal node reachable from the empty node by `set_child`
calls on nibbles, the dense vector holds exactly `popcount(mask)` descriptors,
`get_child(n)` returns the most recently set descriptor for `n`, the
descriptor of every present nibble sits at dense index
`popcount(mask & ((1<<n)-1))`, and absent nibbles yield no descriptor. -/
theorem C5_set_child_invariant (ops : List (Nat × ChildInfo)) (hops : ∀ op ∈ ops, op.1 < 16) :
    (applySets ops).children.length = popcount (applySets ops).bitmap.raw_mask ∧
    (∀ n, (applySets ops).get_child n = lastSet ops n) ∧
    (∀ n, (applySets ops).bitmap.exists_nibble n = true →
      (applySets ops).children[(applySets ops).bitmap.get_index n]?
        = (applySets ops).get_child n) ∧
    (∀ n, (applySets ops).bitmap.exists_nibble n = false →
      (applySets ops).get_child n = none) := by
  obtain ⟨⟨hmask, hcnt⟩, hget⟩ := applySets_inv_and_get ops hops
  refine ⟨hcnt, hget, ?_, ?_⟩
  · intro n hex
    unfold InternalNode.get_child
    rw [if_neg (by simp [hex])]
  · intro n hex
    unfold InternalNode.get_child
    rw [if_pos (by simp [hex])]

/-- Concrete `set_child` sequence for the C5 witness: set nibbles 3 and 5,
then overwrite nibble 3. -/
def c5ops : List (Nat × ChildInfo) :=
  [(3, ⟨[1], 7⟩), (5, ⟨[2], 9⟩), (3, ⟨[4], 11⟩)]

/-- C5 witness: on a concrete operation sequence, `get_child 3` returns the
most recently set descriptor for nibble 3. -/
theorem C5_witness : (applySets c5ops).get_child 3 = lastSet c5ops 3 :=
  (C5_set_child_invariant c5ops (by decide)).2.1 3

/-- C4 witness: a concrete two-child internal node (mask 40, bits 3 and 5)
serializes to the stated length. -/
theorem C4_witness :
    (InternalNode.serialize_canonical
        ⟨⟨40⟩, [⟨List.replicate 64 1, 5⟩, ⟨List.replicate 64 2, 6⟩]⟩).length
      = 2 + popcount
          (InternalNode.mk ⟨40⟩ [⟨List.replicate 64 1, 5⟩, ⟨List.replicate 64 2, 6⟩]).bitmap.raw_mask
          * (64 + 8) :=
  (C4_internal_serialize_canonical ⟨⟨40⟩, [⟨List.replicate 64 1, 5⟩, ⟨List.replicate 64 2, 6⟩]⟩
    (by
      refine ⟨by norm_num, by decide, ?_⟩
      intro c hc
      simp only [List.mem_cons, List.not_mem_nil, or_false] at hc
      rcases hc with rfl | rfl
      · exact ⟨⟨by decide, by decide⟩, by decide⟩
      · exact ⟨⟨by decide, by decide⟩, by decide⟩)).2

-- =====================================================================
-- NodeKey  (src/node_type.hpp) and LRU cache  (src/tree_cache.hpp)
-- =====================================================================

/-- `NodeKey`: version plus nibble path. -/
structure NodeKey where
  version : Nat
  nibble_path : NibblePath
deriving DecidableEq, Repr

/-- LRU cache state.  The C++ keeps a hash map `cache_map_` and a recency list
`lru_list_` in lockstep; one association list ordered most-recent-first
carries both (`entries.map fst` is the recency list, the pairs are the map). -/
structure TreeCache where
  capacity : Nat
  entries : List (NodeKey × Node)
deriving DecidableEq, Repr

namespace TreeCache

/-- `get(key)`: promote a hit to most-recent and return it. -/
def get (s : TreeCache) (k : NodeKey) : Option Node × TreeCache :=
  match s.entries.find? (fun p => decide (p.1 = k)) with
  | none => (none, s)
  | some p =>
    (some p.2, ⟨s.capacity, (k, p.2) :: s.entries.eraseP fun q => decide (q.1 = k)⟩)

/-- `put(key, node)`: update-and-promote an existing key, otherwise evict the
least-recently-used entry when at capacity and insert at the front. -/
def put (s : TreeCache) (k : NodeKey) (v : Node) : TreeCache :=
  match s.entries.find? (fun p => decide (p.1 = k)) with
  | some _ => ⟨s.capacity, (k, v) :: s.entries.eraseP fun q => decide (q.1 = k)⟩
  | none =>
    let kept := if s.entries.length ≥ s.capacity then s.entries.dropLast else s.entries
    ⟨s.capacity, (k, v) :: kept⟩

/-- `clear()`. -/
def clear (s : TreeCache) : TreeCache := ⟨s.capacity, []⟩

/-- `size()`. -/
def size (s : TreeCache) : Nat := s.entries.length

end TreeCache

theorem TreeCache.ext' {s t : TreeCache} (h1 : s.capacity = t.capacity)
    (h2 : s.entries = t.entries) : s = t := by
  cases s
  cases t
  simp_all

-- =====================================================================
-- Speculative overlay cache  (src/xook_adapter.hpp, SpeculativeTreeCache)
-- =====================================================================

/-- `SpeculativeTreeCache`: private overlay and injected maps over a base
cache pointer. -/
structure SpeculativeTreeCache where
  overlay : NodeKey → Option Node
  injected : NodeKey → Option Node
  base : TreeCache

namespace SpeculativeTreeCache

/-- `inject_node(key, node)`: store into the injected map only. -/
def inject_node (s : SpeculativeTreeCache) (k : NodeKey) (v : Node) : SpeculativeTreeCache :=
  { s with injected := fun q => if q = k then some v else s.injected q }

/-- `get(key)`: overlay, then injected, then the base cache (whose recency
list the base `get` promotes). -/
def get (s : SpeculativeTreeCache) (k : NodeKey) : Option Node × SpeculativeTreeCache :=
  match s.overlay k with
  | some v => (some v, s)
  | none =>
    match s.injected k with
    | some v => (some v, s)
    | none =>
      let r := s.base.get k
      (r.1, { s with base := r.2 })

/-- `put(key, node)`: write to the overlay only. -/
def put (s : SpeculativeTreeCache) (k : NodeKey) (v : Node) : SpeculativeTreeCache :=
  { s with overlay := fun q => if q = k then some v else s.overlay q }

/-- `clear()`: drop overlay and injected, leave the base untouched. -/
def clear (s : SpeculativeTreeCache) : SpeculativeTreeCache :=
  { s with overlay := fun _ => none, injected := fun _ => none }

end SpeculativeTreeCache

/-- One mutating operation on the speculative cache. -/
inductive SpecOp where
  | put (k : NodeKey) (v : Node)
  | inject (k : NodeKey) (v : Node)
  | clear

def applySpecOp (s : SpeculativeTreeCache) : SpecOp → SpeculativeTreeCache
  | .put k v => s.put k v
  | .inject k v => s.inject_node k v
  | .clear => s.clear

def applySpecOps (s : SpeculativeTreeCache) (ops : List SpecOp) : SpeculativeTreeCache :=
  ops.foldl applySpecOp s

theorem applySpecOp_base (s : SpeculativeTreeCache) (op : SpecOp) :
    (applySpecOp s op).base = s.base := by
  cases op <;> rfl

/-- C6: any sequence of `put` / `inject_node` / `clear` operations on a
speculative cache leaves the base cache — its stored entries and its
`size()` — unchanged, and `get` resolves overlay first, then injected,
then the base cache. -/
theorem C6_speculative_isolation (s : SpeculativeTreeCache) (ops : List SpecOp) (k : NodeKey) :
    (applySpecOps s ops).base = s.base ∧
    (applySpecOps s ops).base.entries = s.base.entries ∧
    TreeCache.size (applySpecOps s ops).base = TreeCache.size s.base ∧
    (s.get k).1 = ((s.overlay k).or ((s.injected k).or (s.base.get k).1)) := by
  have hbase : ∀ (ops : List SpecOp) (s : SpeculativeTreeCache),
      (applySpecOps s ops).base = s.base := by
    intro ops
    induction ops with
    | nil => intro s; rfl
    | cons op ops ih =>
      intro s
      show (applySpecOps (applySpecOp s op) ops).base = s.base
      rw [ih, applySpecOp_base]
  refine ⟨hbase ops s, by rw [hbase ops s], by rw [hbase ops s], ?_⟩
  unfold SpeculativeTreeCache.get
  cases ho : s.overlay k with
  | some v => rfl
  | none =>
    cases hi : s.injected k with
    | some v => rfl
    | none => rfl

-- =====================================================================
-- LRU eviction  (C7)
-- =====================================================================

/-- Apply a sequence of `put`s, each key with its value from `v`. -/
def putAll (v : NodeKey → Node) (s : TreeCache) (ks : List NodeKey) : TreeCache :=
  ks.foldl (fun s k => s.put k (v k)) s

theorem find?_map_pair (v : NodeKey → Node) :
    ∀ (l : List NodeKey) (k : NodeKey), k ∈ l →
      (l.map fun x => (x, v x)).find? (fun p => decide (p.1 = k)) = some (k, v k) := by
  intro l
  induction l with
  | nil => intro k hk; simp at hk
  | cons x l ih =>
    intro k hk
    by_cases hx : x = k
    · subst hx
      simp [List.find?_cons]
    · have hk' : k ∈ l := by
        rcases List.mem_cons.mp hk with h | h
        · exact absurd h.symm hx
        · exact h
      simp only [List.map_cons, List.find?_cons]
      rw [show decide ((x, v x).1 = k) = false from by simp [hx]]
      exact ih k hk'

theorem find?_map_pair_none (v : NodeKey → Node) (l : List NodeKey) (k : NodeKey)
    (hk : k ∉ l) :
    (l.map fun x => (x, v x)).find? (fun p => decide (p.1 = k)) = none := by
  rw [List.find?_eq_none]
  intro p hp
  simp only [List.mem_map] at hp
  obtain ⟨x, hx, rfl⟩ := hp
  simp only [decide_eq_true_eq]
  intro he
  exact hk (he ▸ hx)

theorem get_map_pair_mem (c : Nat) (v : NodeKey → Node) (l : List NodeKey) (k : NodeKey)
    (hk : k ∈ l) :
    (TreeCache.get ⟨c, l.map fun x => (x, v x)⟩ k).1 = some (v k) := by
  unfold TreeCache.get
  rw [find?_map_pair v l k hk]

theorem get_map_pair_not_mem (c : Nat) (v : NodeKey → Node) (l : List NodeKey) (k : NodeKey)
    (hk : k ∉ l) :
    (TreeCache.get ⟨c, l.map fun x => (x, v x)⟩ k).1 = none := by
  unfold TreeCache.get
  rw [find?_map_pair_none v l k hk]

/-- Filling an empty cache with at most `capacity` distinct keys stacks them
most-recent-first, with no eviction. -/
theorem putAll_fresh (v : NodeKey → Node) :
    ∀ (ks : List NodeKey) (c : Nat), ks.Nodup → ks.length ≤ c →
      putAll v ⟨c, []⟩ ks = ⟨c, ks.reverse.map fun x => (x, v x)⟩ := by
  intro ks
  induction ks using List.reverseRecOn with
  | nil =>
    intro c _ _
    rfl
  | append_singleton ks k ih =>
    intro c hnodup hlen
    obtain ⟨hnd, hnotmem⟩ : ks.Nodup ∧ k ∉ ks := by
      rw [List.nodup_append] at hnodup
      exact ⟨hnodup.1, fun hm => hnodup.2.2 hm (by simp)⟩
    have happ : putAll v ⟨c, []⟩ (ks ++ [k]) = (putAll v ⟨c, []⟩ ks).put k (v k) := by
      unfold putAll
      rw [List.foldl_append]
      rfl
    rw [happ, ih c hnd (by simp at hlen; omega)]
    unfold TreeCache.put
    rw [find?_map_pair_none v ks.reverse k (by simp [hnotmem])]
    have hlt : ¬ (ks.reverse.map fun x => (x, v x)).length ≥ c := by
      simp only [List.length_map, List.length_reverse]
      simp only [List.length_append, List.length_cons, List.length_nil] at hlen
      omega
    show (⟨c, (k, v k) :: (if (ks.reverse.map fun x => (x, v x)).length ≥ c then
        (ks.reverse.map fun x => (x, v x)).dropLast else ks.reverse.map fun x => (x, v x))⟩
      : TreeCache) = _
    rw [if_neg hlt]
    refine TreeCache.ext' rfl ?_
    simp

/-- C7 amended: with capacity `c ≥ 1` and `c+1` distinct keys
`k0 :: mid ++ [klast]`, plain filling evicts the first key and keeps the other
`c`; if the oldest key is `get` before the last insert, that insert evicts the
second-oldest (`c ≥ 2`, i.e. `mid = k1 :: mid'`) and the oldest stays. -/
theorem C7_lru_eviction_amended (c : Nat) (v : NodeKey → Node) (k0 klast : NodeKey)
    (mid : List NodeKey) (hnodup : (k0 :: (mid ++ [klast])).Nodup)
    (hlen : mid.length + 1 = c) :
    ((TreeCache.get (putAll v ⟨c, []⟩ (k0 :: (mid ++ [klast]))) k0).1 = none ∧
      ∀ k ∈ mid ++ [klast],
        (TreeCache.get (putAll v ⟨c, []⟩ (k0 :: (mid ++ [klast]))) k).1 = some (v k)) ∧
    (∀ k1 mid', mid = k1 :: mid' →
      (TreeCache.get (TreeCache.put
          (TreeCache.get (putAll v ⟨c, []⟩ (k0 :: mid)) k0).2 klast (v klast)) k1).1 = none ∧
      (TreeCache.get (TreeCache.put
          (TreeCache.get (putAll v ⟨c, []⟩ (k0 :: mid)) k0).2 klast (v klast)) k0).1
        = some (v k0)) := by
  have hnd0 : (k0 :: mid).Nodup := by
    have := hnodup
    simp only [List.nodup_cons, List.nodup_append] at this ⊢
    exact ⟨fun hm => this.1 (by simp [hm]), this.2.1⟩
  have hk0mid : k0 ∉ mid := by
    have := (List.nodup_cons.mp hnodup).1
    simp only [List.mem_append, List.mem_singleton] at this
    exact fun hm => this (Or.inl hm)
  have hk0last : k0 ≠ klast := by
    have := (List.nodup_cons.mp hnodup).1
    simp only [List.mem_append, List.mem_singleton] at this
    exact fun he => this (Or.inr he)
  have hlastmid : klast ∉ mid := by
    have := (List.nodup_cons.mp hnodup).2
    rw [List.nodup_append] at this
    exact fun hm => this.2.2 hm (by simp)
  have hfill : putAll v ⟨c, []⟩ (k0 :: mid)
      = ⟨c, (mid.reverse ++ [k0]).map fun x => (x, v x)⟩ := by
    rw [putAll_fresh v (k0 :: mid) c hnd0 (by simp; omega)]
    refine TreeCache.ext' rfl ?_
    simp
  constructor
  · -- scenario A: straight c+1 inserts
    have hsplitkeys : k0 :: (mid ++ [klast]) = (k0 :: mid) ++ [klast] := by simp
    have happ : putAll v ⟨c, []⟩ ((k0 :: mid) ++ [klast])
        = (putAll v ⟨c, []⟩ (k0 :: mid)).put klast (v klast) := by
      unfold putAll
      rw [List.foldl_append]
      rfl
    have hput : (putAll v ⟨c, []⟩ (k0 :: mid)).put klast (v klast)
        = ⟨c, (klast :: mid.reverse).map fun x => (x, v x)⟩ := by
      rw [hfill]
      unfold TreeCache.put
      rw [find?_map_pair_none v (mid.reverse ++ [k0]) klast
        (by
          simp only [List.mem_append, List.mem_reverse, List.mem_singleton]
          rintro (hm | he)
          · exact hlastmid hm
          · exact hk0last he.symm)]
      have hge : ((mid.reverse ++ [k0]).map fun x => (x, v x)).length ≥ c := by
        simp
        omega
      show (⟨c, (klast, v klast) :: (if ((mid.reverse ++ [k0]).map fun x => (x, v x)).length ≥ c
          then ((mid.reverse ++ [k0]).map fun x => (x, v x)).dropLast
          else (mid.reverse ++ [k0]).map fun x => (x, v x))⟩ : TreeCache) = _
      rw [if_pos hge]
      refine TreeCache.ext' rfl ?_
      simp
    rw [hsplitkeys, happ, hput]
    constructor
    · exact get_map_pair_not_mem c v _ k0 (by simp [hk0mid, hk0last])
    · intro k hk
      apply get_map_pair_mem c v _ k
      simp only [List.mem_append, List.mem_singleton] at hk
      rcases hk with hk | hk
      · simp [hk]
      · simp [hk]
  · -- scenario B: get the oldest, then insert
    intro k1 mid' hmid
    subst hmid
    have hk1k0 : k1 ≠ k0 := fun he => hk0mid (he ▸ List.mem_cons_self k1 mid')
    have hk1last : k1 ≠ klast := fun he => hlastmid (he ▸ List.mem_cons_self k1 mid')
    have hk1mid' : k1 ∉ mid' := (List.nodup_cons.mp ((List.nodup_cons.mp hnodup).2
      |> List.Nodup.of_append_left)).1
    have hget : (TreeCache.get (putAll v ⟨c, []⟩ (k0 :: (k1 :: mid'))) k0).2
        = ⟨c, (k0 :: (k1 :: mid').reverse).map fun x => (x, v x)⟩ := by
      rw [hfill]
      unfold TreeCache.get
      rw [find?_map_pair v _ k0 (by simp)]
      show (⟨c, (k0, v k0) ::
          (((k1 :: mid').reverse ++ [k0]).map fun x => (x, v x)).eraseP
            fun q => decide (q.1 = k0)⟩ : TreeCache) = _
      refine TreeCache.ext' rfl ?_
      show (k0, v k0) :: _ = _
      rw [List.map_append, List.eraseP_append_right _ (by
        intro b hb
        simp only [List.mem_map] at hb
        obtain ⟨x, hx, rfl⟩ := hb
        simp only [decide_eq_true_eq]
        intro he
        rw [List.mem_reverse] at hx
        exact hk0mid (he ▸ hx))]
      simp [List.eraseP_cons]
    have hput : TreeCache.put ⟨c, (k0 :: (k1 :: mid').reverse).map fun x => (x, v x)⟩
        klast (v klast)
        = ⟨c, (klast :: k0 :: mid'.reverse).map fun x => (x, v x)⟩ := by
      unfold TreeCache.put
      rw [find?_map_pair_none v (k0 :: (k1 :: mid').reverse) klast (by
        intro hmem
        rcases List.mem_cons.mp hmem with he | hm
        · exact hk0last he.symm
        · exact hlastmid (List.mem_reverse.mp hm))]
      have hge : ((k0 :: (k1 :: mid').reverse).map fun x => (x, v x)).length ≥ c := by
        have hlen' : mid'.length + 2 = c := by simpa using hlen
        simp
        omega
      show (⟨c, (klast, v klast) ::
          (if ((k0 :: (k1 :: mid').reverse).map fun x => (x, v x)).length ≥ c
            then ((k0 :: (k1 :: mid').reverse).map fun x => (x, v x)).dropLast
            else (k0 :: (k1 :: mid').reverse).map fun x => (x, v x))⟩ : TreeCache) = _
      rw [if_pos hge]
      refine TreeCache.ext' rfl ?_
      show (klast, v klast) :: ((k0 :: (k1 :: mid').reverse).map fun x => (x, v x)).dropLast
        = (klast :: k0 :: mid'.reverse).map fun x => (x, v x)
      have hshape : ((k0 :: (k1 :: mid').reverse).map fun x => (x, v x))
          = ((k0 :: mid'.reverse).map fun x => (x, v x)) ++ [(k1, v k1)] := by
        simp
      rw [hshape, List.dropLast_concat]
      simp
    rw [hget, hput]
    constructor
    · exact get_map_pair_not_mem c v _ k1 (by
        simp only [List.mem_cons, List.mem_reverse]
        rintro (he | he | hm)
        · exact hk1last he
        · exact hk1k0 he
        · exact hk1mid' hm)
    · exact get_map_pair_mem c v _ k0 (by simp)

/-- C7 counterexample: with capacity `c = 1`, after inserting one key,
retrieving it with `get`, and inserting a second distinct key, the retrieved
oldest key has been evicted — the claim promised it would remain present. -/
theorem C7_counterexample :
    (TreeCache.get
      (TreeCache.put
        (TreeCache.get (TreeCache.put ⟨1, []⟩ ⟨0, ⟨[], 0⟩⟩ (Node.leaf ⟨[], []⟩))
          ⟨0, ⟨[], 0⟩⟩).2
        ⟨1, ⟨[], 0⟩⟩ (Node.leaf ⟨[], []⟩))
      ⟨0, ⟨[], 0⟩⟩).1 = none := rfl

/-- C7 witness: capacity 2, keys with versions 0,1,2: after the filling
sequence with a `get` of the oldest, the second-oldest is evicted and the
oldest is still present. -/
theorem C7_witness :
    (TreeCache.get (TreeCache.put
        (TreeCache.get (putAll (fun _ => Node.leaf ⟨[], []⟩) ⟨2, []⟩
          [⟨0, ⟨[], 0⟩⟩, ⟨1, ⟨[], 0⟩⟩]) ⟨0, ⟨[], 0⟩⟩).2
        ⟨2, ⟨[], 0⟩⟩ (Node.leaf ⟨[], []⟩)) ⟨1, ⟨[], 0⟩⟩).1 = none ∧
    (TreeCache.get (TreeCache.put
        (TreeCache.get (putAll (fun _ => Node.leaf ⟨[], []⟩) ⟨2, []⟩
          [⟨0, ⟨[], 0⟩⟩, ⟨1, ⟨[], 0⟩⟩]) ⟨0, ⟨[], 0⟩⟩).2
        ⟨2, ⟨[], 0⟩⟩ (Node.leaf ⟨[], []⟩)) ⟨0, ⟨[], 0⟩⟩).1
      = some (Node.leaf ⟨[], []⟩) :=
  (C7_lru_eviction_amended 2 (fun _ => Node.leaf ⟨[], []⟩) ⟨0, ⟨[], 0⟩⟩ ⟨2, ⟨[], 0⟩⟩
    [⟨1, ⟨[], 0⟩⟩] (by decide) (by decide)).2 ⟨1, ⟨[], 0⟩⟩ [] rfl

-- =====================================================================
-- Adapters  (src/xmt_legacy_adapter.hpp, src/xook_adapter.hpp)
-- =====================================================================

/-- Insert-or-assign on an association list, as `unordered_map::operator[]=`
on the pending map. -/
def assocUpdate (l : List (List Nat × List Nat)) (k v : List Nat) :
    List (List Nat × List Nat) :=
  if (l.find? fun p => decide (p.1 = k)).isSome then
    l.map fun p => if p.1 = k then (k, v) else p
  else l ++ [(k, v)]

/-- Lookup in the pending association list. -/
def assocLookup (l : List (List Nat × List Nat)) (k : List Nat) : Option (List Nat) :=
  (l.find? fun p => decide (p.1 = k)).map Prod.snd

theorem assocLookup_assocUpdate (l : List (List Nat × List Nat)) (k v : List Nat) :
    assocLookup (assocUpdate l k v) k = some v := by
  unfold assocUpdate assocLookup
  cases hf : (l.find? fun p => decide (p.1 = k)).isSome with
  | false =>
    rw [if_neg (by simp [hf]), List.find?_append]
    have hnone : (l.find? fun p => decide (p.1 = k)) = none := by
      cases h : l.find? fun p => decide (p.1 = k) with
      | none => rfl
      | some p => rw [h] at hf; simp at hf
    rw [hnone]
    simp
  | true =>
    rw [if_pos (by simp [hf])]
    have : ∀ l' : List (List Nat × List Nat),
        (l'.find? fun p => decide (p.1 = k)).isSome = true →
        ((l'.map fun p => if p.1 = k then (k, v) else p).find?
          fun p => decide (p.1 = k)) = some (k, v) := by
      intro l'
      induction l' with
      | nil => intro h; simp at h
      | cons q l' ih =>
        intro h
        by_cases hq : q.1 = k
        · simp only [List.map_cons, if_pos hq, List.find?_cons]
          simp
        · have hd : (decide (q.1 = k)) = false := by simp [hq]
          simp only [List.map_cons, if_neg hq, List.find?_cons, hd]
          apply ih
          rw [List.find?_cons, hd] at h
          exact h
    rw [this l hf]
    rfl

namespace XMTLegacyAdapter

/-- Key derivation in `XMTLegacyAdapter::put` / `calculate_root` / `get`:
copy the first 32 bytes of the raw key, zero-padding short keys — a substring
copy, not a hash. -/
def derive_key (key : List Nat) : List Nat :=
  if key.length ≥ 32 then key.take 32
  else key ++ List.replicate (32 - key.length) 0

/-- Accumulator state of the XMT legacy adapter. -/
structure State where
  pending : List (List Nat × List Nat)
  current_version : Nat

/-- `XMTLegacyAdapter::put`: store the value-hash bytes under the derived
(truncated/padded) key. -/
def put (st : State) (key value_hash : List Nat) (version : Nat) : State :=
  ⟨assocUpdate st.pending (derive_key key) value_hash, version⟩

end XMTLegacyAdapter

namespace XookAdapter

/-- Accumulator state of the XOOK adapter. -/
structure State where
  pending : List (List Nat × List Nat)
  current_version : Nat
  last_root : List Nat

/-- `XookAdapter::put`: hash the full raw key with the hash primitive
(`hash::blake3`, abstracted as `hashfn`) and store the value-hash bytes under
the key hash. -/
def put (hashfn : List Nat → List Nat) (st : State) (key value_hash : List Nat)
    (version : Nat) : State :=
  ⟨assocUpdate st.pending (hashfn key) value_hash, version, st.last_root⟩

end XookAdapter

/-- Modelled from the spec: `TreeUpdateBatch`, the result of the trie engine's
`put_value_set` (its implementation, `xook_merkle_tree.hpp`, is not part of
this repository slice) — the new root hash together with the emitted node
batch of `(node key bytes, framed node bytes)` pairs. -/
structure TreeUpdateBatch where
  new_root_hash : List Nat
  node_batch : List (List Nat × List Nat)
deriving DecidableEq, Repr

/-- `XookAdapter::calculate_root`: merge the explicit updates (keys hashed by
`hashfn`) with the pending map; on an empty merged batch return the base root
unchanged, otherwise call `put_value_set` (abstracted as `pvs`), clear the
pending map, cache the new version and root, and return the batch result. -/
def XookAdapter.calculate_root
    (hashfn : List Nat → List Nat)
    (pvs : List (List Nat × Option (List Nat)) → Nat → List Nat → Option Nat → TreeUpdateBatch)
    (st : XookAdapter.State) (updates : List (List Nat × List Nat))
    (base_root : List Nat) (version : Nat) (base_version : Option Nat) :
    XookAdapter.State × TreeUpdateBatch :=
  let batch := (updates.map fun u => (hashfn u.1, u.2)) ++ st.pending
  if batch.isEmpty then
    (st, { new_root_hash := base_root, node_batch := [] })
  else
    let jmt_updates := batch.map fun p => (p.1, some p.2)
    let result := pvs jmt_updates version base_root base_version
    (⟨[], version, result.new_root_hash⟩, result)

/-- C8 counterexample: two distinct 33-byte raw keys sharing their first 32
bytes are mapped to the same stored key by the XMT legacy adapter's
truncating key derivation, refuting the claim for that adapter. -/
theorem C8_counterexample :
    (List.replicate 33 0 : List Nat) ≠ List.replicate 32 0 ++ [1] ∧
    XMTLegacyAdapter.derive_key (List.replicate 33 0)
      = XMTLegacyAdapter.derive_key (List.replicate 32 0 ++ [1]) ∧
    assocLookup
      (XMTLegacyAdapter.put (XMTLegacyAdapter.put ⟨[], 0⟩ (List.replicate 33 0) [1] 1)
        (List.replicate 32 0 ++ [1]) [2] 2).pending
      (XMTLegacyAdapter.derive_key (List.replicate 33 0)) = some [2] := by
  refine ⟨by decide, by decide, by decide⟩

/-- C8 amended: `XookAdapter::put` derives the stored key by hashing the full
raw key and stores the value-hash bytes under that key hash, so distinct raw
keys (even with equal leading bytes) get distinct stored keys whenever the
hash primitive is injective; `XMTLegacyAdapter::put` instead truncates/pads
and collides. -/
theorem C8_xook_put_key_derivation (hashfn : List Nat → List Nat)
    (hinj : Function.Injective hashfn) (st : XookAdapter.State)
    (k1 k2 : List Nat) (hne : k1 ≠ k2) (v : List Nat) (ver : Nat) :
    assocLookup (XookAdapter.put hashfn st k1 v ver).pending (hashfn k1) = some v ∧
    (XookAdapter.put hashfn st k1 v ver).current_version = ver ∧
    hashfn k1 ≠ hashfn k2 :=
  ⟨assocLookup_assocUpdate st.pending (hashfn k1) v, rfl,
    fun he => hne (hinj he)⟩

/-- C8 witness: with the identity hash primitive and two concrete keys. -/
theorem C8_witness :
    assocLookup (XookAdapter.put id ⟨[], 0, []⟩ [1, 2] [9] 4).pending (id [1, 2]) = some [9] ∧
    (XookAdapter.put id ⟨[], 0, []⟩ [1, 2] [9] 4).current_version = 4 ∧
    id [1, 2] ≠ id [1, 3] :=
  C8_xook_put_key_derivation id Function.injective_id ⟨[], 0, []⟩ [1, 2] [1, 3]
    (by decide) [9] 4

/-- A fixed abstract `put_value_set` used by the C9 artifacts. -/
def pvs0 : List (List Nat × Option (List Nat)) → Nat → List Nat → Option Nat → TreeUpdateBatch :=
  fun _ _ _ _ => { new_root_hash := List.replicate 64 7, node_batch := [] }

/-- C9 counterexample: with an empty merged batch, `calculate_root` returns
the base root without invoking `put_value_set` and leaves the cached version
and root untouched — the claim asserted the empty case behaves like the rest. -/
theorem C9_counterexample :
    (XookAdapter.calculate_root id pvs0 ⟨[], 5, List.replicate 64 0⟩ []
        (List.replicate 64 1) 7 none).1.current_version = 5 ∧
    (XookAdapter.calculate_root id pvs0 ⟨[], 5, List.replicate 64 0⟩ []
        (List.replicate 64 1) 7 none).1.current_version ≠ 7 ∧
    (XookAdapter.calculate_root id pvs0 ⟨[], 5, List.replicate 64 0⟩ []
        (List.replicate 64 1) 7 none).2.new_root_hash
      ≠ (pvs0 [] 7 (List.replicate 64 1) none).new_root_hash := by
  refine ⟨rfl, by decide, by decide⟩

/-- C9 amended: whenever the merged batch is non-empty, `calculate_root`
invokes `put_value_set` on it, clears the pending map, caches the new version
and the returned root, and returns `put_value_set`'s batch; with an empty
merged batch it instead returns the base root with no nodes and leaves the
adapter state unchanged. -/
theorem C9_calculate_root (hashfn : List Nat → List Nat)
    (pvs : List (List Nat × Option (List Nat)) → Nat → List Nat → Option Nat → TreeUpdateBatch)
    (st : XookAdapter.State) (updates : List (List Nat × List Nat))
    (base_root : List Nat) (version : Nat) (base_version : Option Nat) :
    ((updates.map fun u => (hashfn u.1, u.2)) ++ st.pending ≠ [] →
      XookAdapter.calculate_root hashfn pvs st updates base_root version base_version
        = (⟨[], version,
            (pvs (((updates.map fun u => (hashfn u.1, u.2)) ++ st.pending).map
              fun p => (p.1, some p.2)) version base_root base_version).new_root_hash⟩,
           pvs (((updates.map fun u => (hashfn u.1, u.2)) ++ st.pending).map
              fun p => (p.1, some p.2)) version base_root base_version)) ∧
    ((updates.map fun u => (hashfn u.1, u.2)) ++ st.pending = [] →
      XookAdapter.calculate_root hashfn pvs st updates base_root version base_version
        = (st, { new_root_hash := base_root, node_batch := [] })) := by
  constructor
  · intro hne
    unfold XookAdapter.calculate_root
    rw [if_neg (by simpa using hne)]
  · intro hemp
    unfold XookAdapter.calculate_root
    rw [if_pos (by simpa using hemp)]

/-- C9 witness: a concrete non-empty pending map flows through
`put_value_set`, the pending map is cleared and version and root are cached. -/
theorem C9_witness :
    XookAdapter.calculate_root id pvs0 ⟨[([2], [3])], 5, []⟩ [] [] 7 none
      = (⟨[], 7, (pvs0 [([2], some [3])] 7 [] none).new_root_hash⟩,
         pvs0 [([2], some [3])] 7 [] none) :=
  (C9_calculate_root id pvs0 ⟨[([2], [3])], 5, []⟩ [] [] 7 none).1 (by decide)

-- =====================================================================
-- NibblePath.from_bytes bounds  (C10)
-- =====================================================================

theorem from_bytes_bytes_length (b : List Nat) (n : Nat) (hble : (n + 1) / 2 ≤ b.length) :
    (NibblePath.from_bytes b n).bytes_.length = (n + 1) / 2 := by
  have hkept : (if b.length > (n + 1) / 2 then b.take ((n + 1) / 2) else b).length
      = (n + 1) / 2 := by
    by_cases hbl : b.length > (n + 1) / 2
    · rw [if_pos hbl, List.length_take]
      omega
    · rw [if_neg hbl]
      omega
  show (if n % 2 ≠ 0 ∧ (if b.length > (n + 1) / 2 then b.take ((n + 1) / 2) else b) ≠ [] then
      (if b.length > (n + 1) / 2 then b.take ((n + 1) / 2) else b).dropLast
        ++ [(if b.length > (n + 1) / 2 then b.take ((n + 1) / 2) else b).getLast! &&& 0xF0]
    else if b.length > (n + 1) / 2 then b.take ((n + 1) / 2) else b).length = (n + 1) / 2
  by_cases hc : n % 2 ≠ 0 ∧ (if b.length > (n + 1) / 2 then b.take ((n + 1) / 2) else b) ≠ []
  · have hpos : (if b.length > (n + 1) / 2 then b.take ((n + 1) / 2) else b).length ≠ 0 :=
      fun h0 => hc.2 (List.length_eq_zero.mp h0)
    rw [hkept] at hpos
    rw [if_pos hc, List.length_append, List.length_dropLast, hkept]
    simp only [List.length_cons, List.length_nil]
    omega
  · rw [if_neg hc, hkept]

/-- C10 amended: `from_bytes(b, n)` always yields a path of size `n`, and
every `get_nibble` access within range reads inside the stored packed vector
provided `b` carries at least `⌈n/2⌉` bytes (with fewer bytes the access can
be out of bounds). -/
theorem C10_from_bytes_size_and_bounds (b : List Nat) (n : Nat) :
    (NibblePath.from_bytes b n).size = n ∧
    ((n + 1) / 2 ≤ b.length →
      ∀ i < n, NibblePath.access_in_bounds (NibblePath.from_bytes b n) i) := by
  refine ⟨rfl, ?_⟩
  intro hble i hi
  unfold NibblePath.access_in_bounds
  rw [from_bytes_bytes_length b n hble]
  omega

/-- C10 counterexample: with an empty byte vector and a requested size of two
nibbles, the path reports size 2 but the `bytes_[0]` access of
`get_nibble(0)` is out of bounds. -/
theorem C10_counterexample :
    (NibblePath.from_bytes [] 2).size = 2 ∧ (0 : Nat) < 2 ∧
    ¬ NibblePath.access_in_bounds (NibblePath.from_bytes [] 2) 0 := by
  refine ⟨rfl, by norm_num, by decide⟩

/-- C10 witness: one byte suffices for a two-nibble path; the access of
nibble 1 is in bounds. -/
theorem C10_witness : NibblePath.access_in_bounds (NibblePath.from_bytes [171] 2) 1 :=
  (C10_from_bytes_size_and_bounds [171] 2).2 (by decide) 1 (by decide)

end Xook
